import Mathlib

/-
Verification of WTF::LikelyDenseUnsignedIntegerSet
(Source/WTF/wtf/LikelyDenseUnsignedIntegerSet.h).

The container is shallowly embedded for the instantiation IndexType = uint32_t
(an unsigned 32-bit integer type, like the C type `unsigned` used for m_size).
Machine-integer fields of reachable states are always below 2^32, so most
arithmetic is modelled with plain natural numbers; an explicit `% W` is written
exactly at the operations whose result can exceed 2^32 even when all inputs are
in range (the cost-estimate multiplications), matching the wrap-around of the
C `unsigned` arithmetic.  Unsigned subtractions in the source are all guarded
(subtrahend not larger than minuend on reachable states), so natural-number
subtraction is a faithful model of them.

The external collaborators WTF::BitVector and WTF::HashSet are not part of the
repository sources here; they are modelled from the specification's contract
(see the doc comments below).  A BitVector is modelled by the finite set of its
set bit positions; a HashSet by the finite set of its members plus a capacity
counter.
-/

namespace LikelyDense

/-- Number of values of the 32-bit index type; unsigned arithmetic wraps mod `W`. -/
def W : ℕ := 2 ^ 32

/-- Modelled from the spec: `UnsignedWithZeroKeyHashTraits` of the external
hash-set primitive reserves the all-ones value as its "empty" sentinel. -/
def emptyValue : ℕ := W - 1

/-- Modelled from the spec: the traits reserve all-ones minus one as the
"deleted" sentinel. -/
def deletedValue : ℕ := W - 2

/-- Source `isValidValue`: a value is valid when it is a 32-bit value distinct
from both reserved sentinels of the hash-set traits. -/
def isValidValue (v : ℕ) : Prop := v < W ∧ v ≠ emptyValue ∧ v ≠ deletedValue

instance (v : ℕ) : Decidable (isValidValue v) := by
  unfold isValidValue; infer_instance

/-- Modelled from the spec: the external hash-based set primitive over unsigned
integers (WTF::HashSet, whose code is not among the sources).  It supports
insertion with new-entry detection, membership test, size, reserving an initial
capacity, and reporting its current capacity.  Only the member set matters for
the container's semantics; the capacity is tracked because the container reads
it for its cost estimates. -/
structure HSet where
  elems : Finset ℕ
  capacity : ℕ
deriving DecidableEq

/-- Modelled from the spec: capacity growth of the hash-set primitive.  The
table size is at least 8 and doubles whenever occupancy would exceed 50%
("max occupancy for a large HashSet is 50%"). -/
def HSet.grow (cap n : ℕ) : ℕ :=
  if 2 * n ≤ max 8 cap then max 8 cap else 2 * max 8 cap

/-- Modelled from the spec: insertion with new-entry detection.  Returns the
updated set and whether the value was newly inserted. -/
def HSet.add (h : HSet) (v : ℕ) : HSet × Bool :=
  if v ∈ h.elems then (h, false)
  else ({ elems := insert v h.elems,
          capacity := HSet.grow h.capacity (insert v h.elems).card }, true)

/-- Modelled from the spec: a fresh hash-set with room reserved for `n` keys. -/
def HSet.reserveInitialCapacity (n : ℕ) : HSet :=
  { elems := ∅, capacity := max 8 (2 * n) }

/-- The anonymous union `U` of the source: either the BitVector member or the
HashSet member is live.  The BitVector (an external primitive, modelled from
the spec) is represented by the set of its set bit positions. -/
inductive U where
  | bv (b : Finset ℕ)
  | hs (h : HSet)
deriving DecidableEq

/-- Reading the `bitVector` member of the union (junk value on the dead arm;
reachable states only read the live arm). -/
def U.bitVector : U → Finset ℕ
  | .bv b => b
  | .hs _ => ∅

/-- Reading the `hashSet` member of the union (junk value on the dead arm). -/
def U.hashSet : U → HSet
  | .bv _ => ⟨∅, 0⟩
  | .hs h => h

/-- Source `LikelyDenseUnsignedIntegerSet`: the union plus the size counter
(whose all-ones value flags hash-set mode) and the tracked bounds. -/
structure LDSet where
  m_inline : U
  m_size : ℕ
  m_min : ℕ
  m_max : ℕ
deriving DecidableEq

/-- Source `isBitVector`: bitmap mode iff the size counter is not the sentinel
`std::numeric_limits<unsigned>::max()`. -/
def isBitVector (s : LDSet) : Bool := s.m_size != W - 1

/-- Source default constructor: empty bit vector, all counters zero. -/
def initial : LDSet := { m_inline := .bv ∅, m_size := 0, m_min := 0, m_max := 0 }

/-- Source `contains`. -/
def contains (s : LDSet) (value : ℕ) : Bool :=
  if isBitVector s then
    if s.m_min > value then false
    else decide ((value - s.m_min) ∈ s.m_inline.bitVector)
  else decide (value ∈ s.m_inline.hashSet.elems)

/-- Source `size`. -/
def size (s : LDSet) : ℕ :=
  if isBitVector s then s.m_size else s.m_inline.hashSet.elems.card

/-- Source `transitionToHashSet`: build a fresh hash-set with capacity reserved
for `m_size + 1` keys, insert every bitmap member (bit position plus `m_min`),
iterating set bits in ascending order, and flag hash-set mode via the size
sentinel. -/
def transitionToHashSet (s : LDSet) : LDSet :=
  let newSet := (s.m_inline.bitVector.sort (· ≤ ·)).foldl
    (fun acc oldIndex => (acc.add (oldIndex + s.m_min)).1)
    (HSet.reserveInitialCapacity (s.m_size + 1))
  { m_inline := .hs newSet, m_size := W - 1, m_min := s.m_min, m_max := s.m_max }

/-- Source `transitionToBitVector`: set one bit per hash-set member at
`member - m_min`, counting the members back into `m_size` (the hash-set is
iterated in some order; ascending order is used here, the result does not
depend on it). -/
def transitionToBitVector (s : LDSet) : LDSet :=
  let p := (s.m_inline.hashSet.elems.sort (· ≤ ·)).foldl
    (fun (p : Finset ℕ × ℕ) oldValue => (insert (oldValue - s.m_min) p.1, p.2 + 1))
    (∅, 0)
  { m_inline := .bv p.1, m_size := p.2, m_min := s.m_min, m_max := s.m_max }

/-- Source `add`.  Returns the updated container and `AddResult.isNewEntry`.
The cost-estimate products carry an explicit `% W` because the corresponding
C expressions are `unsigned` multiplications that can wrap; the comparison
`wouldBeBitVectorSize * 2 < hashSetSize` needs no reduction on its left operand
since `(m_max - m_min) / 8 < 2^29` for 32-bit bounds. -/
def add (s : LDSet) (value : ℕ) : LDSet × Bool :=
  if s.m_size = 0 then
    ({ m_inline := .bv (insert 0 s.m_inline.bitVector),
       m_size := 1, m_min := value, m_max := value }, true)
  else if !isBitVector s then
    let r := s.m_inline.hashSet.add value
    if !r.2 then ({ s with m_inline := .hs r.1 }, false)
    else
      let newMin := min s.m_min value
      let newMax := max s.m_max value
      let hashSetSize := (r.1.capacity * 4) % W
      let wouldBeBitVectorSize := (newMax - newMin) / 8
      let s1 : LDSet :=
        { m_inline := .hs r.1, m_size := s.m_size, m_min := newMin, m_max := newMax }
      if wouldBeBitVectorSize * 2 < hashSetSize then (transitionToBitVector s1, true)
      else (s1, true)
  else if s.m_min ≤ value ∧ value ≤ s.m_max then
    let isNewEntry := ! decide ((value - s.m_min) ∈ s.m_inline.bitVector)
    ({ s with
        m_inline := .bv (insert (value - s.m_min) s.m_inline.bitVector),
        m_size := s.m_size + (if isNewEntry then 1 else 0) }, isNewEntry)
  else
    let newSize := s.m_size + 1
    let newMin := min s.m_min value
    let newMax := max s.m_max value
    let bitVectorSize := (newMax - newMin) / 8
    let wouldBeHashSetCapacity := (max 8 newSize * 3) % W
    let wouldBeHashSetSize := (wouldBeHashSetCapacity * 4) % W
    if wouldBeHashSetSize * 2 % W < bitVectorSize then
      let s1 := transitionToHashSet { s with m_size := newSize }
      let r := s1.m_inline.hashSet.add value
      ({ s1 with m_inline := .hs r.1, m_min := newMin, m_max := newMax }, true)
    else if s.m_min ≤ value then
      ({ s with
          m_inline := .bv (insert (value - s.m_min) s.m_inline.bitVector),
          m_size := newSize, m_max := value }, true)
    else
      let shiftReduction := s.m_min - value
      let newBitVector :=
        insert 0 ((s.m_inline.bitVector).image (· + shiftReduction))
      ({ s with m_inline := .bv newBitVector, m_size := newSize, m_min := value }, true)

/-- Source `validate`: recompute minimum, maximum (and, in bitmap mode, the
element count) from the live representation and check them against the tracked
fields.  Returns whether every RELEASE_ASSERT would pass. -/
def validate (s : LDSet) : Bool :=
  if isBitVector s then
    let p := (s.m_inline.bitVector.sort (· ≤ ·)).foldl
      (fun (p : ℕ × ℕ × ℕ) shiftedIndex =>
        (min p.1 (s.m_min + shiftedIndex), max p.2.1 (s.m_min + shiftedIndex), p.2.2 + 1))
      (W - 1, 0, 0)
    decide (s.m_size = p.2.2) &&
      (if s.m_size ≠ 0 then decide (s.m_min = p.1) && decide (s.m_max = p.2.1) else true)
  else
    let p := (s.m_inline.hashSet.elems.sort (· ≤ ·)).foldl
      (fun (p : ℕ × ℕ) index => (min p.1 index, max p.2 index)) (W - 1, 0)
    if s.m_size ≠ 0 then decide (s.m_min = p.1) && decide (s.m_max = p.2) else true

/-- Source move constructor: the destination copies `m_size`, `m_min`, `m_max`
and move-constructs whichever union member `isBitVector()` (evaluated on the
already copied size field) selects.  The moved-from primitives are left empty
(modelled from the spec: the external BitVector and HashSet are emptied by
their moves); the scalar fields of the source are not touched by the source
code.  Returns (destination, moved-from source). -/
def moveConstruct (other : LDSet) : LDSet × LDSet :=
  if other.m_size != W - 1 then
    ({ m_inline := .bv other.m_inline.bitVector,
       m_size := other.m_size, m_min := other.m_min, m_max := other.m_max },
     { other with m_inline := .bv ∅ })
  else
    ({ m_inline := .hs other.m_inline.hashSet,
       m_size := other.m_size, m_min := other.m_min, m_max := other.m_max },
     { other with m_inline := .hs ⟨∅, 0⟩ })

/-- The abstract member set of a container state: bitmap bits shifted by
`m_min` in bitmap mode, the hash-set members otherwise. -/
def members (s : LDSet) : Finset ℕ :=
  if isBitVector s then s.m_inline.bitVector.image (· + s.m_min)
  else s.m_inline.hashSet.elems

/-- Folding a list of insertions through `add`. -/
def addAll (s : LDSet) (l : List ℕ) : LDSet :=
  l.foldl (fun t v => (add t v).1) s

/-- A state is reachable when some sequence of valid insertions produces it
from the freshly constructed container. -/
def Reachable (s : LDSet) : Prop :=
  ∃ l : List ℕ, (∀ v ∈ l, isValidValue v) ∧ s = addAll initial l

/-- The representation invariant of reachable states.  In bitmap mode the size
counter is not the mode sentinel and counts the set bits, and a nonempty bitmap
has bit 0 set, has bit `m_max - m_min` set, and only has bits at positions `i`
with `m_min + i` a valid value at most `m_max`.  In hash-set mode the counter
is the sentinel, the tracked bounds are members, and every member is a valid
value within the bounds. -/
def Inv (s : LDSet) : Prop :=
  match s.m_inline with
  | .bv b =>
      s.m_size ≠ W - 1 ∧ s.m_size = b.card ∧
      (b = ∅ ∨ (0 ∈ b ∧ (s.m_max - s.m_min) ∈ b ∧ s.m_min ≤ s.m_max ∧
        ∀ i ∈ b, i ≤ s.m_max - s.m_min ∧ isValidValue (s.m_min + i)))
  | .hs h =>
      s.m_size = W - 1 ∧ s.m_min ∈ h.elems ∧ s.m_max ∈ h.elems ∧
      ∀ x ∈ h.elems, s.m_min ≤ x ∧ x ≤ s.m_max ∧ isValidValue x

end LikelyDense

namespace LikelyDense

/-! Basic lemmas about the modelled hash-set primitive. -/

theorem HSet.add_elems (h : HSet) (v : ℕ) : ((h.add v).1).elems = insert v h.elems := by
  unfold HSet.add
  split
  · rename_i hv
    simp [Finset.insert_eq_self.2 hv]
  · rfl

theorem HSet.add_isNew (h : HSet) (v : ℕ) : (h.add v).2 = true ↔ v ∉ h.elems := by
  unfold HSet.add
  split
  · rename_i hv
    simpa using hv
  · rename_i hv
    simpa using hv

/-! Characterizations of the iteration folds used by the transitions. -/

theorem sortMap_toFinset (f : ℕ → ℕ) (t : Finset ℕ) :
    ((t.sort (· ≤ ·)).map f).toFinset = t.image f := by
  ext x
  simp [Finset.mem_sort]

theorem foldl_insert_eq (f : ℕ → ℕ) (l : List ℕ) (b : Finset ℕ) :
    l.foldl (fun acc i => insert (f i) acc) b = b ∪ (l.map f).toFinset := by
  induction l generalizing b with
  | nil => simp
  | cons a l ih =>
    rw [List.foldl_cons, ih]
    ext x
    simp [or_assoc]

theorem foldl_hset_elems (g : ℕ → ℕ) (l : List ℕ) (h0 : HSet) :
    (l.foldl (fun acc x => (acc.add (g x)).1) h0).elems = h0.elems ∪ (l.map g).toFinset := by
  induction l generalizing h0 with
  | nil => simp
  | cons a l ih =>
    rw [List.foldl_cons, ih, HSet.add_elems]
    ext x
    simp [or_assoc]

theorem foldl_pair_insert (f : ℕ → ℕ) (l : List ℕ) (b : Finset ℕ) (n : ℕ) :
    l.foldl (fun (p : Finset ℕ × ℕ) v => (insert (f v) p.1, p.2 + 1)) (b, n)
      = (b ∪ (l.map f).toFinset, n + l.length) := by
  induction l generalizing b n with
  | nil => simp
  | cons a l ih =>
    rw [List.foldl_cons, ih]
    refine Prod.ext ?_ ?_
    · show insert (f a) b ∪ (l.map f).toFinset = b ∪ ((a :: l).map f).toFinset
      ext x
      simp [or_assoc]
    · show n + 1 + l.length = n + (a :: l).length
      simp [List.length_cons]
      omega

/-! Rewriting the two representation transitions into set-level form. -/

theorem transitionToBitVector_eq (s : LDSet) :
    transitionToBitVector s =
      { m_inline := .bv (s.m_inline.hashSet.elems.image (· - s.m_min)),
        m_size := s.m_inline.hashSet.elems.card,
        m_min := s.m_min, m_max := s.m_max } := by
  unfold transitionToBitVector
  rw [foldl_pair_insert (· - s.m_min)]
  rw [sortMap_toFinset, Finset.length_sort]
  simp

theorem transitionToHashSet_elems (s : LDSet) :
    (transitionToHashSet s).m_inline.hashSet.elems
      = s.m_inline.bitVector.image (· + s.m_min) := by
  unfold transitionToHashSet
  show (((s.m_inline.bitVector.sort (· ≤ ·)).foldl
      (fun acc oldIndex => (acc.add (oldIndex + s.m_min)).1)
      (HSet.reserveInitialCapacity (s.m_size + 1)))).elems = _
  rw [foldl_hset_elems (· + s.m_min), sortMap_toFinset]
  simp [HSet.reserveInitialCapacity]

theorem transitionToHashSet_fields (s : LDSet) :
    (∃ h, (transitionToHashSet s).m_inline = .hs h) ∧
      (transitionToHashSet s).m_size = W - 1 ∧
      (transitionToHashSet s).m_min = s.m_min ∧
      (transitionToHashSet s).m_max = s.m_max := by
  refine ⟨⟨_, rfl⟩, rfl, rfl, rfl⟩

end LikelyDense

namespace LikelyDense

/-! Arithmetic and membership helpers. -/

theorem W_eq : W = 4294967296 := by norm_num [W]

theorem valid_le {v : ℕ} (hv : isValidValue v) : v ≤ W - 3 := by
  obtain ⟨h1, h2, h3⟩ := hv
  unfold emptyValue deletedValue at *
  rw [W_eq] at *
  omega

theorem mem_image_addc {b : Finset ℕ} {mn v : ℕ} (h : mn ≤ v) :
    v ∈ b.image (· + mn) ↔ v - mn ∈ b := by
  constructor
  · rintro hm
    rw [Finset.mem_image] at hm
    obtain ⟨i, hi, hiv⟩ := hm
    have : i = v - mn := by omega
    rwa [this] at hi
  · intro hm
    rw [Finset.mem_image]
    exact ⟨v - mn, hm, by omega⟩

theorem card_image_addc (b : Finset ℕ) (c : ℕ) : (b.image (· + c)).card = b.card :=
  Finset.card_image_of_injective b (add_left_injective c)

theorem card_image_subc {t : Finset ℕ} {mn : ℕ} (h : ∀ x ∈ t, mn ≤ x) :
    (t.image (· - mn)).card = t.card := by
  apply Finset.card_image_of_injOn
  intro x hx y hy hxy
  have hx2 := h x hx
  have hy2 := h y hy
  simp only at hxy
  omega

theorem image_sub_add {t : Finset ℕ} {mn : ℕ} (h : ∀ x ∈ t, mn ≤ x) :
    (t.image (· - mn)).image (· + mn) = t := by
  ext x
  simp only [Finset.mem_image]
  constructor
  · rintro ⟨i, ⟨y, hy, rfl⟩, rfl⟩
    have := h y hy
    have : y - mn + mn = y := by omega
    rwa [this]
  · intro hx
    exact ⟨x - mn, ⟨x, hx, rfl⟩, by have := h x hx; omega⟩

/-! Branch equations of `add`, one per control path of the source function. -/

theorem add_empty (u : U) (mn mx v : ℕ) :
    add ⟨u, 0, mn, mx⟩ v = (⟨.bv (insert 0 u.bitVector), 1, v, v⟩, true) := by
  unfold add
  simp

theorem add_hs_dup (h : HSet) (mn mx v : ℕ) (hv : v ∈ h.elems) :
    add ⟨.hs h, W - 1, mn, mx⟩ v = (⟨.hs h, W - 1, mn, mx⟩, false) := by
  unfold add
  dsimp only [U.hashSet]
  rw [if_neg (show ¬ (W - 1 = 0) by rw [W_eq]; omega)]
  rw [if_pos (show (!isBitVector ⟨.hs h, W - 1, mn, mx⟩) = true by simp [isBitVector])]
  rw [show HSet.add h v = (h, false) from by simp [HSet.add, hv]]
  simp

theorem add_hs_new_trans (h : HSet) (mn mx v : ℕ) (hv : v ∉ h.elems)
    (hcond : (max mx v - min mn v) / 8 * 2 < ((h.add v).1.capacity * 4) % W) :
    add ⟨.hs h, W - 1, mn, mx⟩ v =
      (transitionToBitVector ⟨.hs (h.add v).1, W - 1, min mn v, max mx v⟩, true) := by
  unfold add
  dsimp only [U.hashSet]
  rw [if_neg (show ¬ (W - 1 = 0) by rw [W_eq]; omega)]
  rw [if_pos (show (!isBitVector ⟨.hs h, W - 1, mn, mx⟩) = true by simp [isBitVector])]
  rw [(HSet.add_isNew h v).2 hv]
  rw [if_neg (show ¬ ((!true) = true) by simp)]
  rw [if_pos hcond]

theorem add_hs_new_stay (h : HSet) (mn mx v : ℕ) (hv : v ∉ h.elems)
    (hcond : ¬ ((max mx v - min mn v) / 8 * 2 < ((h.add v).1.capacity * 4) % W)) :
    add ⟨.hs h, W - 1, mn, mx⟩ v =
      (⟨.hs (h.add v).1, W - 1, min mn v, max mx v⟩, true) := by
  unfold add
  dsimp only [U.hashSet]
  rw [if_neg (show ¬ (W - 1 = 0) by rw [W_eq]; omega)]
  rw [if_pos (show (!isBitVector ⟨.hs h, W - 1, mn, mx⟩) = true by simp [isBitVector])]
  rw [(HSet.add_isNew h v).2 hv]
  rw [if_neg (show ¬ ((!true) = true) by simp)]
  rw [if_neg hcond]

end LikelyDense

namespace LikelyDense

theorem add_bv_in_mem (b : Finset ℕ) (sz mn mx v : ℕ) (hsz0 : sz ≠ 0) (hsz : sz ≠ W - 1)
    (h1 : mn ≤ v) (h2 : v ≤ mx) (hmem : v - mn ∈ b) :
    add ⟨.bv b, sz, mn, mx⟩ v = (⟨.bv (insert (v - mn) b), sz, mn, mx⟩, false) := by
  unfold add
  dsimp only [U.bitVector]
  rw [if_neg hsz0]
  rw [if_neg (show ¬ ((!isBitVector ⟨.bv b, sz, mn, mx⟩) = true) by simp [isBitVector, hsz])]
  rw [if_pos (show mn ≤ v ∧ v ≤ mx from ⟨h1, h2⟩)]
  simp [hmem]

theorem add_bv_in_new (b : Finset ℕ) (sz mn mx v : ℕ) (hsz0 : sz ≠ 0) (hsz : sz ≠ W - 1)
    (h1 : mn ≤ v) (h2 : v ≤ mx) (hmem : v - mn ∉ b) :
    add ⟨.bv b, sz, mn, mx⟩ v = (⟨.bv (insert (v - mn) b), sz + 1, mn, mx⟩, true) := by
  unfold add
  dsimp only [U.bitVector]
  rw [if_neg hsz0]
  rw [if_neg (show ¬ ((!isBitVector ⟨.bv b, sz, mn, mx⟩) = true) by simp [isBitVector, hsz])]
  rw [if_pos (show mn ≤ v ∧ v ≤ mx from ⟨h1, h2⟩)]
  simp [hmem]

theorem add_bv_out_trans (b : Finset ℕ) (sz mn mx v : ℕ) (hsz0 : sz ≠ 0) (hsz : sz ≠ W - 1)
    (hout : ¬ (mn ≤ v ∧ v ≤ mx))
    (hcond : (max 8 (sz + 1) * 3) % W * 4 % W * 2 % W < (max mx v - min mn v) / 8) :
    add ⟨.bv b, sz, mn, mx⟩ v =
      (⟨.hs ((transitionToHashSet ⟨.bv b, sz + 1, mn, mx⟩).m_inline.hashSet.add v).1,
        W - 1, min mn v, max mx v⟩, true) := by
  unfold add
  dsimp only [U.bitVector]
  rw [if_neg hsz0]
  rw [if_neg (show ¬ ((!isBitVector ⟨.bv b, sz, mn, mx⟩) = true) by simp [isBitVector, hsz])]
  rw [if_neg hout]
  rw [if_pos hcond]
  rfl

theorem add_bv_out_up (b : Finset ℕ) (sz mn mx v : ℕ) (hsz0 : sz ≠ 0) (hsz : sz ≠ W - 1)
    (hout : ¬ (mn ≤ v ∧ v ≤ mx))
    (hcond : ¬ ((max 8 (sz + 1) * 3) % W * 4 % W * 2 % W < (max mx v - min mn v) / 8))
    (hup : mn ≤ v) :
    add ⟨.bv b, sz, mn, mx⟩ v = (⟨.bv (insert (v - mn) b), sz + 1, mn, v⟩, true) := by
  unfold add
  dsimp only [U.bitVector]
  rw [if_neg hsz0]
  rw [if_neg (show ¬ ((!isBitVector ⟨.bv b, sz, mn, mx⟩) = true) by simp [isBitVector, hsz])]
  rw [if_neg hout]
  rw [if_neg hcond]
  rw [if_pos hup]

theorem add_bv_out_down (b : Finset ℕ) (sz mn mx v : ℕ) (hsz0 : sz ≠ 0) (hsz : sz ≠ W - 1)
    (hout : ¬ (mn ≤ v ∧ v ≤ mx))
    (hcond : ¬ ((max 8 (sz + 1) * 3) % W * 4 % W * 2 % W < (max mx v - min mn v) / 8))
    (hdown : ¬ (mn ≤ v)) :
    add ⟨.bv b, sz, mn, mx⟩ v =
      (⟨.bv (insert 0 (b.image (· + (mn - v)))), sz + 1, v, mx⟩, true) := by
  unfold add
  dsimp only [U.bitVector]
  rw [if_neg hsz0]
  rw [if_neg (show ¬ ((!isBitVector ⟨.bv b, sz, mn, mx⟩) = true) by simp [isBitVector, hsz])]
  rw [if_neg hout]
  rw [if_neg hcond]
  rw [if_neg hdown]

end LikelyDense

namespace LikelyDense

theorem card_le_of_le {t : Finset ℕ} {k : ℕ} (h : ∀ i ∈ t, i ≤ k) : t.card ≤ k + 1 := by
  have hsub : t ⊆ Finset.range (k + 1) := by
    intro i hi
    have := h i hi
    exact Finset.mem_range.2 (by omega)
  simpa [Finset.card_range] using Finset.card_le_card hsub

theorem members_bv (b : Finset ℕ) (sz mn mx : ℕ) (hsz : sz ≠ W - 1) :
    members ⟨.bv b, sz, mn, mx⟩ = b.image (· + mn) := by
  simp [members, isBitVector, U.bitVector, hsz]

theorem members_hs (h : HSet) (mn mx : ℕ) :
    members ⟨.hs h, W - 1, mn, mx⟩ = h.elems := by
  simp [members, isBitVector, U.hashSet]

theorem step_hs (h : HSet) (mn mx v : ℕ) (hI : Inv ⟨.hs h, W - 1, mn, mx⟩)
    (hv : isValidValue v) :
    Inv (add ⟨.hs h, W - 1, mn, mx⟩ v).1 ∧
      members (add ⟨.hs h, W - 1, mn, mx⟩ v).1 = insert v (members ⟨.hs h, W - 1, mn, mx⟩) ∧
      ((add ⟨.hs h, W - 1, mn, mx⟩ v).2 = true ↔ v ∉ members ⟨.hs h, W - 1, mn, mx⟩) := by
  simp only [Inv] at hI
  obtain ⟨-, hmin, hmax, hall⟩ := hI
  by_cases hvmem : v ∈ h.elems
  · rw [add_hs_dup h mn mx v hvmem]
    refine ⟨?_, ?_, ?_⟩
    · simp only [Inv]
      exact ⟨trivial, hmin, hmax, hall⟩
    · rw [members_hs]
      exact (Finset.insert_eq_self.2 hvmem).symm
    · simp [members_hs, hvmem]
  · -- a genuinely new entry: min and max are updated, then the cost estimate decides
    have hmn'E : min mn v ∈ insert v h.elems := by
      rcases le_total mn v with hle | hle
      · rw [min_eq_left hle]; exact Finset.mem_insert_of_mem hmin
      · rw [min_eq_right hle]; exact Finset.mem_insert_self v _
    have hmx'E : max mx v ∈ insert v h.elems := by
      rcases le_total mx v with hle | hle
      · rw [max_eq_right hle]; exact Finset.mem_insert_self v _
      · rw [max_eq_left hle]; exact Finset.mem_insert_of_mem hmax
    have hallE : ∀ x ∈ insert v h.elems, min mn v ≤ x ∧ x ≤ max mx v ∧ isValidValue x := by
      intro x hx
      rcases Finset.mem_insert.1 hx with rfl | hx
      · exact ⟨min_le_right mn x, le_max_right mx x, hv⟩
      · obtain ⟨ha, hb, hc⟩ := hall x hx
        exact ⟨le_trans (min_le_left mn v) ha, le_trans hb (le_max_left mx v), hc⟩
    have hcardE : (insert v h.elems).card ≠ W - 1 := by
      have hle : ∀ x ∈ insert v h.elems, x ≤ max mx v := fun x hx => (hallE x hx).2.1
      have h1 : (insert v h.elems).card ≤ max mx v + 1 := card_le_of_le hle
      have h2 : max mx v ≤ W - 3 := valid_le (hallE _ hmx'E).2.2
      rw [W_eq] at *
      omega
    have hgeE : ∀ x ∈ insert v h.elems, min mn v ≤ x := fun x hx => (hallE x hx).1
    by_cases hC : (max mx v - min mn v) / 8 * 2 < ((h.add v).1.capacity * 4) % W
    · rw [add_hs_new_trans h mn mx v hvmem hC]
      dsimp only
      rw [transitionToBitVector_eq]
      dsimp only [U.hashSet]
      rw [HSet.add_elems]
      refine ⟨?_, ?_, ?_⟩
      · simp only [Inv]
        refine ⟨?_, ?_, Or.inr ⟨?_, ?_, ?_, ?_⟩⟩
        · exact hcardE
        · exact (card_image_subc hgeE).symm
        · exact Finset.mem_image.2 ⟨min mn v, hmn'E, by omega⟩
        · exact Finset.mem_image.2 ⟨max mx v, hmx'E, rfl⟩
        · exact (hallE _ hmx'E).1
        · rintro i hi
          obtain ⟨x, hx, rfl⟩ := Finset.mem_image.1 hi
          obtain ⟨ha, hb, hc⟩ := hallE x hx
          refine ⟨by omega, ?_⟩
          rw [show min mn v + (x - min mn v) = x by omega]
          exact hc
      · rw [show ((insert v h.elems).card : ℕ) = ((insert v h.elems).image (· - min mn v)).card
            from (card_image_subc hgeE).symm]
        rw [members_bv _ _ _ _ (by rw [card_image_subc hgeE]; exact hcardE)]
        rw [image_sub_add hgeE, members_hs]
      · simp [members_hs, hvmem]
    · rw [add_hs_new_stay h mn mx v hvmem hC]
      refine ⟨?_, ?_, ?_⟩
      · simp only [Inv, HSet.add_elems]
        exact ⟨trivial, hmn'E, hmx'E, hallE⟩
      · rw [members_hs, members_hs, HSet.add_elems]
      · simp [members_hs, hvmem]

end LikelyDense

namespace LikelyDense

theorem step_bv (b : Finset ℕ) (sz mn mx v : ℕ) (hI : Inv ⟨.bv b, sz, mn, mx⟩)
    (hv : isValidValue v) :
    Inv (add ⟨.bv b, sz, mn, mx⟩ v).1 ∧
      members (add ⟨.bv b, sz, mn, mx⟩ v).1 = insert v (members ⟨.bv b, sz, mn, mx⟩) ∧
      ((add ⟨.bv b, sz, mn, mx⟩ v).2 = true ↔ v ∉ members ⟨.bv b, sz, mn, mx⟩) := by
  simp only [Inv] at hI
  obtain ⟨hsz, hcard, hdisj⟩ := hI
  have hWe := W_eq
  have hvle : v ≤ W - 3 := valid_le hv
  by_cases hsz0 : sz = 0
  · subst hsz0
    have hb : b = ∅ := Finset.card_eq_zero.1 hcard.symm
    subst hb
    rw [show add ⟨.bv ∅, 0, mn, mx⟩ v = (⟨.bv (insert 0 (∅ : Finset ℕ)), 1, v, v⟩, true)
        from add_empty (U.bv ∅) mn mx v]
    refine ⟨?_, ?_, ?_⟩
    · simp only [Inv]
      refine ⟨by omega, by simp, Or.inr ⟨by simp, by simp, le_refl v, ?_⟩⟩
      intro i hi
      simp only [Finset.mem_insert, Finset.not_mem_empty, or_false] at hi
      subst hi
      exact ⟨by omega, by simpa using hv⟩
    · rw [members_bv _ _ _ _ (show (1 : ℕ) ≠ W - 1 by omega), members_bv _ _ _ _ hsz]
      simp
    · rw [members_bv _ _ _ _ hsz]
      simp
  · have hbne : b ≠ ∅ := by
      intro hb0
      subst hb0
      exact hsz0 (by simpa using hcard)
    obtain ⟨h0b, hmxb, hmnmx, hball⟩ := hdisj.resolve_left hbne
    have hmxval : isValidValue mx := by
      have h2 := (hball _ hmxb).2
      rwa [show mn + (mx - mn) = mx from by omega] at h2
    have hmxle : mx ≤ W - 3 := valid_le hmxval
    have hmnmem : mn ∈ b.image (· + mn) := Finset.mem_image.2 ⟨0, h0b, by omega⟩
    have hmxmem : mx ∈ b.image (· + mn) := Finset.mem_image.2 ⟨mx - mn, hmxb, by omega⟩
    have hrange : ∀ x ∈ b.image (· + mn), mn ≤ x ∧ x ≤ mx := by
      rintro x hx
      obtain ⟨i, hi, rfl⟩ := Finset.mem_image.1 hx
      have := (hball i hi).1
      constructor <;> omega
    by_cases hin : mn ≤ v ∧ v ≤ mx
    · obtain ⟨h1, h2⟩ := hin
      by_cases hmem : v - mn ∈ b
      · rw [add_bv_in_mem b sz mn mx v hsz0 hsz h1 h2 hmem]
        have hins : insert (v - mn) b = b := Finset.insert_eq_self.2 hmem
        rw [hins]
        refine ⟨?_, ?_, ?_⟩
        · simp only [Inv]
          exact ⟨hsz, hcard, Or.inr ⟨h0b, hmxb, hmnmx, hball⟩⟩
        · rw [members_bv _ _ _ _ hsz]
          exact (Finset.insert_eq_self.2 ((mem_image_addc h1).2 hmem)).symm
        · rw [members_bv _ _ _ _ hsz]
          simp [(mem_image_addc h1).2 hmem]
      · rw [add_bv_in_new b sz mn mx v hsz0 hsz h1 h2 hmem]
        have hcard' : sz + 1 = (insert (v - mn) b).card := by
          rw [Finset.card_insert_of_not_mem hmem]
          omega
        have hboundall : ∀ i ∈ insert (v - mn) b, i ≤ mx - mn := by
          intro i hi
          rcases Finset.mem_insert.1 hi with rfl | hi
          · omega
          · exact (hball i hi).1
        have hne' : sz + 1 ≠ W - 1 := by
          have hc := card_le_of_le hboundall
          rw [← hcard'] at hc
          omega
        refine ⟨?_, ?_, ?_⟩
        · simp only [Inv]
          refine ⟨hne', hcard',
            Or.inr ⟨Finset.mem_insert_of_mem h0b, Finset.mem_insert_of_mem hmxb, hmnmx, ?_⟩⟩
          intro i hi
          rcases Finset.mem_insert.1 hi with rfl | hi
          · refine ⟨by omega, ?_⟩
            rw [show mn + (v - mn) = v from by omega]
            exact hv
          · exact hball i hi
        · rw [members_bv _ _ _ _ hne', members_bv _ _ _ _ hsz]
          rw [Finset.image_insert, show (v - mn) + mn = v from by omega]
        · rw [members_bv _ _ _ _ hsz]
          simp only [mem_image_addc h1]
          simp [hmem]
    · have hvnot : v ∉ b.image (· + mn) := by
        intro hvm
        exact hin ⟨(hrange v hvm).1, (hrange v hvm).2⟩
      by_cases hD : (max 8 (sz + 1) * 3) % W * 4 % W * 2 % W < (max mx v - min mn v) / 8
      · rw [add_bv_out_trans b sz mn mx v hsz0 hsz hin hD]
        have hNel : ((transitionToHashSet ⟨.bv b, sz + 1, mn, mx⟩).m_inline.hashSet).elems
            = b.image (· + mn) := transitionToHashSet_elems _
        have haddel :
            (((transitionToHashSet ⟨.bv b, sz + 1, mn, mx⟩).m_inline.hashSet).add v).1.elems
              = insert v (b.image (· + mn)) := by
          rw [HSet.add_elems, hNel]
        refine ⟨?_, ?_, ?_⟩
        · simp only [Inv]
          rw [haddel]
          refine ⟨trivial, ?_, ?_, ?_⟩
          · rcases le_total mn v with hle | hle
            · rw [min_eq_left hle]; exact Finset.mem_insert_of_mem hmnmem
            · rw [min_eq_right hle]; exact Finset.mem_insert_self _ _
          · rcases le_total mx v with hle | hle
            · rw [max_eq_right hle]; exact Finset.mem_insert_self _ _
            · rw [max_eq_left hle]; exact Finset.mem_insert_of_mem hmxmem
          · intro x hx
            rcases Finset.mem_insert.1 hx with rfl | hx
            · exact ⟨min_le_right _ _, le_max_right _ _, hv⟩
            · have hr := hrange x hx
              have hval : isValidValue x := by
                obtain ⟨i, hi, rfl⟩ := Finset.mem_image.1 hx
                have hvi := (hball i hi).2
                rwa [Nat.add_comm mn i] at hvi
              exact ⟨le_trans (min_le_left _ _) hr.1, le_trans hr.2 (le_max_left _ _), hval⟩
        · rw [members_hs, haddel, members_bv _ _ _ _ hsz]
        · rw [members_bv _ _ _ _ hsz]
          simp [hvnot]
      · rcases Nat.lt_or_ge v mn with hlt | hge
        · have hdown : ¬ (mn ≤ v) := by omega
          rw [add_bv_out_down b sz mn mx v hsz0 hsz hin hD hdown]
          have h0not : (0 : ℕ) ∉ b.image (· + (mn - v)) := by
            intro h0
            obtain ⟨i, hi, hieq⟩ := Finset.mem_image.1 h0
            omega
          have hcard' : sz + 1 = (insert 0 (b.image (· + (mn - v)))).card := by
            rw [Finset.card_insert_of_not_mem h0not, card_image_addc]
            omega
          have hboundall : ∀ i ∈ insert 0 (b.image (· + (mn - v))), i ≤ mx - v := by
            intro i hi
            rcases Finset.mem_insert.1 hi with rfl | hi
            · omega
            · obtain ⟨j, hj, rfl⟩ := Finset.mem_image.1 hi
              have := (hball j hj).1
              omega
          have hne' : sz + 1 ≠ W - 1 := by
            have hc := card_le_of_le hboundall
            rw [← hcard'] at hc
            omega
          refine ⟨?_, ?_, ?_⟩
          · simp only [Inv]
            refine ⟨hne', hcard',
              Or.inr ⟨Finset.mem_insert_self _ _,
                Finset.mem_insert_of_mem (Finset.mem_image.2 ⟨mx - mn, hmxb, by omega⟩),
                by omega, ?_⟩⟩
            intro i hi
            rcases Finset.mem_insert.1 hi with rfl | hi
            · exact ⟨by omega, by simpa using hv⟩
            · obtain ⟨j, hj, rfl⟩ := Finset.mem_image.1 hi
              have hb1 := (hball j hj).1
              have hb2 := (hball j hj).2
              refine ⟨by omega, ?_⟩
              rw [show v + (j + (mn - v)) = mn + j from by omega]
              exact hb2
          · rw [members_bv _ _ _ _ hne', members_bv _ _ _ _ hsz]
            rw [Finset.image_insert, Finset.image_image]
            rw [show (0 : ℕ) + v = v from by omega]
            have hfun : ((fun x => x + v) ∘ fun x : ℕ => x + (mn - v)) = (fun x : ℕ => x + mn) := by
              funext j
              simp only [Function.comp_apply]
              omega
            rw [hfun]
          · rw [members_bv _ _ _ _ hsz]
            simp [hvnot]
        · have hgt : mx < v := by
            rcases Nat.lt_or_ge mx v with h | h
            · exact h
            · exact absurd ⟨hge, h⟩ hin
          rw [add_bv_out_up b sz mn mx v hsz0 hsz hin hD hge]
          have hvmnot : v - mn ∉ b := by
            intro hm
            have := (hball _ hm).1
            omega
          have hcard' : sz + 1 = (insert (v - mn) b).card := by
            rw [Finset.card_insert_of_not_mem hvmnot]
            omega
          have hboundall : ∀ i ∈ insert (v - mn) b, i ≤ v - mn := by
            intro i hi
            rcases Finset.mem_insert.1 hi with rfl | hi
            · omega
            · have := (hball i hi).1
              omega
          have hne' : sz + 1 ≠ W - 1 := by
            have hc := card_le_of_le hboundall
            rw [← hcard'] at hc
            omega
          refine ⟨?_, ?_, ?_⟩
          · simp only [Inv]
            refine ⟨hne', hcard',
              Or.inr ⟨Finset.mem_insert_of_mem h0b, Finset.mem_insert_self _ _, by omega, ?_⟩⟩
            intro i hi
            rcases Finset.mem_insert.1 hi with rfl | hi
            · refine ⟨le_refl _, ?_⟩
              rw [show mn + (v - mn) = v from by omega]
              exact hv
            · exact ⟨by have := (hball i hi).1; omega, (hball i hi).2⟩
          · rw [members_bv _ _ _ _ hne', members_bv _ _ _ _ hsz]
            rw [Finset.image_insert, show (v - mn) + mn = v from by omega]
          · rw [members_bv _ _ _ _ hsz]
            simp [hvnot]

end LikelyDense

namespace LikelyDense

theorem add_step (s : LDSet) (v : ℕ) (hI : Inv s) (hv : isValidValue v) :
    Inv (add s v).1 ∧ members (add s v).1 = insert v (members s) ∧
      ((add s v).2 = true ↔ v ∉ members s) := by
  obtain ⟨u, sz, mn, mx⟩ := s
  cases u with
  | bv b => exact step_bv b sz mn mx v hI hv
  | hs h =>
      have hsz : sz = W - 1 := by
        simp only [Inv] at hI
        exact hI.1
      subst hsz
      exact step_hs h mn mx v hI hv

theorem size_eq_card (s : LDSet) (hI : Inv s) : size s = (members s).card := by
  obtain ⟨u, sz, mn, mx⟩ := s
  cases u with
  | bv b =>
      simp only [Inv] at hI
      obtain ⟨hsz, hcard, -⟩ := hI
      have h1 : size ⟨.bv b, sz, mn, mx⟩ = sz := by simp [size, isBitVector, hsz]
      rw [h1, members_bv _ _ _ _ hsz, card_image_addc]
      exact hcard
  | hs h =>
      simp only [Inv] at hI
      obtain ⟨hsz, -⟩ := hI
      subst hsz
      rw [members_hs]
      simp [size, isBitVector, U.hashSet]

theorem contains_iff (s : LDSet) (hI : Inv s) (v : ℕ) :
    contains s v = true ↔ v ∈ members s := by
  obtain ⟨u, sz, mn, mx⟩ := s
  cases u with
  | hs h =>
      have hsz : sz = W - 1 := by
        simp only [Inv] at hI
        exact hI.1
      subst hsz
      rw [members_hs]
      simp [contains, isBitVector, U.hashSet]
  | bv b =>
      simp only [Inv] at hI
      obtain ⟨hsz, -, -⟩ := hI
      rw [members_bv _ _ _ _ hsz]
      by_cases hmn : mn > v
      · have hno : v ∉ b.image (· + mn) := by
          intro hm
          obtain ⟨i, hi, rfl⟩ := Finset.mem_image.1 hm
          omega
        simp [contains, isBitVector, hsz, U.bitVector, hmn, hno]
      · have hmn' : mn ≤ v := by omega
        simp [contains, isBitVector, hsz, U.bitVector, hmn, mem_image_addc hmn']

theorem addAll_cons (s : LDSet) (v : ℕ) (l : List ℕ) :
    addAll s (v :: l) = addAll (add s v).1 l := rfl

theorem addAll_inv (l : List ℕ) (s : LDSet) (hI : Inv s) (hl : ∀ v ∈ l, isValidValue v) :
    Inv (addAll s l) ∧ members (addAll s l) = members s ∪ l.toFinset := by
  induction l generalizing s with
  | nil => exact ⟨hI, by simp [addAll]⟩
  | cons a l ih =>
      have hva : isValidValue a := hl a (by simp)
      have hstep := add_step s a hI hva
      have hrec := ih (add s a).1 hstep.1 (fun v hv => hl v (by simp [hv]))
      rw [addAll_cons]
      refine ⟨hrec.1, ?_⟩
      rw [hrec.2, hstep.2.1]
      ext x
      simp [or_assoc]

theorem initial_inv : Inv initial := by
  simp only [Inv, initial]
  exact ⟨by rw [W_eq]; omega, by simp, Or.inl trivial⟩

theorem members_initial : members initial = ∅ := by
  rw [show members initial = (∅ : Finset ℕ).image (· + 0)
      from members_bv ∅ 0 0 0 (by rw [W_eq]; omega)]
  simp

theorem reachable_inv {s : LDSet} (h : Reachable s) : Inv s := by
  obtain ⟨l, hl, rfl⟩ := h
  exact (addAll_inv l initial initial_inv hl).1

theorem members_addAll (l : List ℕ) (hl : ∀ v ∈ l, isValidValue v) :
    members (addAll initial l) = l.toFinset := by
  have h := (addAll_inv l initial initial_inv hl).2
  rw [members_initial] at h
  simpa using h

end LikelyDense

namespace LikelyDense

theorem foldl_min_le (f : ℕ → ℕ) (l : List ℕ) (a : ℕ) :
    (l.foldl (fun q x => min q (f x)) a) ≤ a ∧
      ∀ x ∈ l, (l.foldl (fun q x => min q (f x)) a) ≤ f x := by
  induction l generalizing a with
  | nil => simp
  | cons y l ih =>
      rw [List.foldl_cons]
      obtain ⟨h1, h2⟩ := ih (min a (f y))
      refine ⟨le_trans h1 (min_le_left _ _), ?_⟩
      intro x hx
      rcases List.mem_cons.1 hx with rfl | hx
      · exact le_trans h1 (min_le_right _ _)
      · exact h2 x hx

theorem foldl_min_mem (f : ℕ → ℕ) (l : List ℕ) (a : ℕ) :
    (l.foldl (fun q x => min q (f x)) a) = a ∨
      ∃ x ∈ l, (l.foldl (fun q x => min q (f x)) a) = f x := by
  induction l generalizing a with
  | nil => simp
  | cons y l ih =>
      rw [List.foldl_cons]
      rcases ih (min a (f y)) with h | ⟨x, hx, h⟩
      · rcases min_cases a (f y) with ⟨he, -⟩ | ⟨he, -⟩
        · left; rw [h, he]
        · right; exact ⟨y, List.mem_cons_self y l, by rw [h, he]⟩
      · right; exact ⟨x, List.mem_cons_of_mem y hx, h⟩

theorem foldl_max_ge (f : ℕ → ℕ) (l : List ℕ) (c : ℕ) :
    c ≤ (l.foldl (fun q x => max q (f x)) c) ∧
      ∀ x ∈ l, f x ≤ (l.foldl (fun q x => max q (f x)) c) := by
  induction l generalizing c with
  | nil => simp
  | cons y l ih =>
      rw [List.foldl_cons]
      obtain ⟨h1, h2⟩ := ih (max c (f y))
      refine ⟨le_trans (le_max_left _ _) h1, ?_⟩
      intro x hx
      rcases List.mem_cons.1 hx with rfl | hx
      · exact le_trans (le_max_right _ _) h1
      · exact h2 x hx

theorem foldl_max_mem (f : ℕ → ℕ) (l : List ℕ) (c : ℕ) :
    (l.foldl (fun q x => max q (f x)) c) = c ∨
      ∃ x ∈ l, (l.foldl (fun q x => max q (f x)) c) = f x := by
  induction l generalizing c with
  | nil => simp
  | cons y l ih =>
      rw [List.foldl_cons]
      rcases ih (max c (f y)) with h | ⟨x, hx, h⟩
      · rcases max_cases c (f y) with ⟨he, -⟩ | ⟨he, -⟩
        · left; rw [h, he]
        · right; exact ⟨y, List.mem_cons_self y l, by rw [h, he]⟩
      · right; exact ⟨x, List.mem_cons_of_mem y hx, h⟩

theorem fold_min_finset (g : ℕ → ℕ) (t : Finset ℕ) (a m : ℕ) (hm : m ∈ t)
    (hlow : ∀ x ∈ t, g m ≤ g x) (ha : g m ≤ a) :
    ((t.sort (· ≤ ·)).foldl (fun q x => min q (g x)) a) = g m := by
  obtain ⟨h1, h2⟩ := foldl_min_le g (t.sort (· ≤ ·)) a
  have hm' : m ∈ t.sort (· ≤ ·) := (Finset.mem_sort _).2 hm
  have hle := h2 m hm'
  rcases foldl_min_mem g (t.sort (· ≤ ·)) a with he | ⟨x, hx, he⟩
  · omega
  · have hgx := hlow x ((Finset.mem_sort _).1 hx)
    omega

theorem fold_max_finset (g : ℕ → ℕ) (t : Finset ℕ) (c m : ℕ) (hm : m ∈ t)
    (hhigh : ∀ x ∈ t, g x ≤ g m) (hc : c ≤ g m) :
    ((t.sort (· ≤ ·)).foldl (fun q x => max q (g x)) c) = g m := by
  obtain ⟨h1, h2⟩ := foldl_max_ge g (t.sort (· ≤ ·)) c
  have hm' : m ∈ t.sort (· ≤ ·) := (Finset.mem_sort _).2 hm
  have hge := h2 m hm'
  rcases foldl_max_mem g (t.sort (· ≤ ·)) c with he | ⟨x, hx, he⟩
  · omega
  · have hgx := hhigh x ((Finset.mem_sort _).1 hx)
    omega

theorem foldl_tri_split (g : ℕ → ℕ) (l : List ℕ) (a c n : ℕ) :
    l.foldl (fun (p : ℕ × ℕ × ℕ) x => (min p.1 (g x), max p.2.1 (g x), p.2.2 + 1)) (a, c, n)
      = (l.foldl (fun q x => min q (g x)) a, l.foldl (fun q x => max q (g x)) c,
         n + l.length) := by
  induction l generalizing a c n with
  | nil => simp
  | cons y l ih =>
      rw [List.foldl_cons, List.foldl_cons, List.foldl_cons, ih]
      refine Prod.ext rfl (Prod.ext rfl ?_)
      show n + 1 + l.length = n + (y :: l).length
      simp [List.length_cons]
      omega

theorem foldl_duo_split (g : ℕ → ℕ) (l : List ℕ) (a c : ℕ) :
    l.foldl (fun (p : ℕ × ℕ) x => (min p.1 (g x), max p.2 (g x))) (a, c)
      = (l.foldl (fun q x => min q (g x)) a, l.foldl (fun q x => max q (g x)) c) := by
  induction l generalizing a c with
  | nil => simp
  | cons y l ih =>
      rw [List.foldl_cons, List.foldl_cons, List.foldl_cons, ih]

end LikelyDense

namespace LikelyDense

theorem validate_of_inv (s : LDSet) (hI : Inv s) : validate s = true := by
  have hWe := W_eq
  obtain ⟨u, sz, mn, mx⟩ := s
  cases u with
  | bv b =>
      simp only [Inv] at hI
      obtain ⟨hsz, hcard, hdisj⟩ := hI
      unfold validate
      rw [if_pos (show isBitVector ⟨.bv b, sz, mn, mx⟩ = true by simp [isBitVector, hsz])]
      dsimp only [U.bitVector]
      rw [foldl_tri_split (fun x => mn + x)]
      dsimp only
      rw [Finset.length_sort]
      by_cases hsz0 : sz = 0
      · simp [hsz0, ← hcard]
      · have hbne : b ≠ ∅ := by
          intro hb0
          subst hb0
          exact hsz0 (by simpa using hcard)
        obtain ⟨h0b, hmxb, hmnmx, hball⟩ := hdisj.resolve_left hbne
        have hmnle : mn ≤ W - 3 := by
          have := valid_le (hball 0 h0b).2
          omega
        have hminfold := fold_min_finset (fun x => mn + x) b (W - 1) 0 h0b
          (by intro x hx; show mn + 0 ≤ mn + x; omega)
          (by show mn + 0 ≤ W - 1; omega)
        have hmaxfold := fold_max_finset (fun x => mn + x) b 0 (mx - mn) hmxb
          (by intro x hx; show mn + x ≤ mn + (mx - mn); have := (hball x hx).1; omega)
          (Nat.zero_le _)
        rw [hminfold, hmaxfold]
        simp [hsz0, ← hcard]
        omega
  | hs h =>
      simp only [Inv] at hI
      obtain ⟨hsz, hmin, hmax, hall⟩ := hI
      subst hsz
      unfold validate
      rw [if_neg (show ¬ (isBitVector ⟨.hs h, W - 1, mn, mx⟩ = true) by simp [isBitVector])]
      dsimp only [U.hashSet]
      rw [foldl_duo_split (fun x => x)]
      dsimp only
      have hmnle : mn ≤ W - 3 := valid_le (hall mn hmin).2.2
      have hminfold := fold_min_finset (fun x => x) h.elems (W - 1) mn hmin
        (by intro x hx; exact (hall x hx).1) (by show mn ≤ W - 1; omega)
      have hmaxfold := fold_max_finset (fun x => x) h.elems 0 mx hmax
        (by intro x hx; exact (hall x hx).2.1) (Nat.zero_le _)
      rw [hminfold, hmaxfold]
      simp [show ¬ ((W : ℕ) - 1 = 0) by omega]

end LikelyDense

namespace LikelyDense

theorem isBitVector_true_of_inv_bv (b : Finset ℕ) (sz mn mx : ℕ)
    (hI : Inv ⟨.bv b, sz, mn, mx⟩) : isBitVector ⟨.bv b, sz, mn, mx⟩ = true := by
  simp only [Inv] at hI
  simp [isBitVector, hI.1]

/-- C1: for every sequence of valid (non-sentinel) insertions, after the whole
sequence `contains v` is true exactly for the values that occur in the
sequence: true for every value added so far, false for every valid value never
added. -/
theorem claim_round_trip (l : List ℕ) (hl : ∀ x ∈ l, isValidValue x) (v : ℕ)
    (hv : isValidValue v) :
    contains (addAll initial l) v = true ↔ v ∈ l := by
  rw [contains_iff _ ((addAll_inv l initial initial_inv hl).1), members_addAll l hl]
  exact List.mem_toFinset

/-- Witness for C1 at the spec scenario 4000, 4002, 4003 with one present and
one absent probe value. -/
theorem claim_round_trip_witness :
    (∀ x ∈ [4000, 4002, 4003], isValidValue x) ∧ isValidValue 4002 ∧ isValidValue 4001 ∧
      (contains (addAll initial [4000, 4002, 4003]) 4002 = true ↔
        4002 ∈ [4000, 4002, 4003]) ∧
      (contains (addAll initial [4000, 4002, 4003]) 4001 = true ↔
        4001 ∈ [4000, 4002, 4003]) :=
  ⟨by decide, by decide, by decide,
   claim_round_trip [4000, 4002, 4003] (by decide) 4002 (by decide),
   claim_round_trip [4000, 4002, 4003] (by decide) 4001 (by decide)⟩

/-- C2: after any sequence of valid insertions, `size` equals the number of
distinct values inserted so far, however many representation transitions
happened along the way. -/
theorem claim_size_distinct (l : List ℕ) (hl : ∀ x ∈ l, isValidValue x) :
    size (addAll initial l) = l.toFinset.card := by
  rw [size_eq_card _ ((addAll_inv l initial initial_inv hl).1), members_addAll l hl]

/-- Witness for C2 on a sequence with a duplicate. -/
theorem claim_size_distinct_witness :
    (∀ x ∈ [4000, 4002, 4003, 4002], isValidValue x) ∧
      size (addAll initial [4000, 4002, 4003, 4002])
        = ([4000, 4002, 4003, 4002] : List ℕ).toFinset.card :=
  ⟨by decide, claim_size_distinct [4000, 4002, 4003, 4002] (by decide)⟩

/-- C3: whenever an `add` on a reachable state flips the active representation,
the member set afterwards is exactly the member set before plus the inserted
value: nothing is lost and nothing extraneous appears. -/
theorem claim_transition_no_loss (s : LDSet) (v : ℕ) (hs : Reachable s)
    (hv : isValidValue v) (ht : isBitVector (add s v).1 ≠ isBitVector s) :
    members (add s v).1 = insert v (members s) :=
  (add_step s v (reachable_inv hs) hv).2.1

/-- Witness for C3: inserting 1600 into the bitmap singleton set containing 0
forces the bitmap-to-hash-set transition. -/
theorem claim_transition_no_loss_witness :
    Reachable (addAll initial [0]) ∧ isValidValue 1600 ∧
      isBitVector (add (addAll initial [0]) 1600).1 ≠ isBitVector (addAll initial [0]) ∧
      members (add (addAll initial [0]) 1600).1 = insert 1600 (members (addAll initial [0])) :=
  ⟨⟨[0], by decide, rfl⟩, by decide, by decide,
   claim_transition_no_loss _ _ ⟨[0], by decide, rfl⟩ (by decide) (by decide)⟩

end LikelyDense

namespace LikelyDense

/-- C7: on reachable states, `contains` in bitmap mode is false below the
tracked minimum and otherwise tests bit `value - m_min`; in hash-set mode it
delegates to the hash-set; it is a pure function of the state (the embedding
returns only a Bool, no state), so it can neither mutate the container nor
trigger a transition, and it computes exactly membership in the abstract
member set. -/
theorem claim_contains_spec (s : LDSet) (v : ℕ) (hs : Reachable s) (hv : isValidValue v) :
    (isBitVector s = true →
      (v < s.m_min → contains s v = false) ∧
      (s.m_min ≤ v → (contains s v = true ↔ (v - s.m_min) ∈ s.m_inline.bitVector))) ∧
    (isBitVector s = false → (contains s v = true ↔ v ∈ s.m_inline.hashSet.elems)) ∧
    (contains s v = true ↔ v ∈ members s) := by
  refine ⟨?_, ?_, contains_iff s (reachable_inv hs) v⟩
  · intro hbv
    constructor
    · intro hlt
      simp [contains, hbv, show s.m_min > v from hlt]
    · intro hge
      simp [contains, hbv, show ¬ (s.m_min > v) from by omega]
  · intro hbv
    simp [contains, hbv]

/-- Witness for C7 at the two-element bitmap state with minimum 10. -/
theorem claim_contains_spec_witness :
    Reachable (addAll initial [50, 10]) ∧ isValidValue 50 ∧
      (contains (addAll initial [50, 10]) 50 = true ↔
        50 ∈ members (addAll initial [50, 10])) :=
  ⟨⟨[50, 10], by decide, rfl⟩, by decide,
   (claim_contains_spec _ 50 ⟨[50, 10], by decide, rfl⟩ (by decide)).2.2⟩

/-- C8: adding the same absent valid value twice on a reachable state reports
a new entry and then an already-present entry, and the second call leaves
`size` unchanged. -/
theorem claim_add_twice (s : LDSet) (v : ℕ) (hs : Reachable s) (hv : isValidValue v)
    (habs : v ∉ members s) :
    (add s v).2 = true ∧ (add (add s v).1 v).2 = false ∧
      size (add (add s v).1 v).1 = size (add s v).1 := by
  have hI := reachable_inv hs
  have h1 := add_step s v hI hv
  have h2 := add_step (add s v).1 v h1.1 hv
  have hvmem : v ∈ members (add s v).1 := by
    rw [h1.2.1]
    exact Finset.mem_insert_self _ _
  refine ⟨h1.2.2.mpr habs, ?_, ?_⟩
  · have hne := h2.2.2
    cases hb : (add (add s v).1 v).2 with
    | false => rfl
    | true =>
        rw [hb] at hne
        exact absurd (hne.mp rfl) (by simpa using hvmem)
  · rw [size_eq_card _ h2.1, size_eq_card _ h1.1, h2.2.1, Finset.insert_eq_self.2 hvmem]

/-- Witness for C8 at an absent value in a bitmap state. -/
theorem claim_add_twice_witness :
    Reachable (addAll initial [50]) ∧ isValidValue 10 ∧
      10 ∉ members (addAll initial [50]) ∧
      ((add (addAll initial [50]) 10).2 = true ∧
        (add (add (addAll initial [50]) 10).1 10).2 = false ∧
        size (add (add (addAll initial [50]) 10).1 10).1 = size (add (addAll initial [50]) 10).1) :=
  ⟨⟨[50], by decide, rfl⟩, by decide, by decide,
   claim_add_twice _ 10 ⟨[50], by decide, rfl⟩ (by decide) (by decide)⟩

/-- C10: on every reachable nonempty bitmap-mode state, bit 0 is set, so the
tracked minimum is itself a member and `contains m_min` holds. -/
theorem claim_bit_zero (s : LDSet) (hs : Reachable s) (hbv : isBitVector s = true)
    (hne : s.m_size ≠ 0) :
    0 ∈ s.m_inline.bitVector ∧ contains s s.m_min = true := by
  have hI := reachable_inv hs
  obtain ⟨u, sz, mn, mx⟩ := s
  cases u with
  | hs h =>
      simp only [Inv] at hI
      exact absurd hbv (by simp [isBitVector, hI.1])
  | bv b =>
      simp only [Inv] at hI
      obtain ⟨hsz, hcard, hdisj⟩ := hI
      have hne' : sz ≠ 0 := hne
      have hbne : b ≠ ∅ := by
        intro h0
        subst h0
        exact hne' (by simpa using hcard)
      obtain ⟨h0b, -, -, -⟩ := hdisj.resolve_left hbne
      refine ⟨h0b, ?_⟩
      simp [contains, isBitVector, hsz, U.bitVector, h0b]

/-- Witness for C10 at the bitmap state reached by inserting 50 then 10. -/
theorem claim_bit_zero_witness :
    Reachable (addAll initial [50, 10]) ∧
      isBitVector (addAll initial [50, 10]) = true ∧
      (addAll initial [50, 10]).m_size ≠ 0 ∧
      (0 ∈ (addAll initial [50, 10]).m_inline.bitVector ∧
        contains (addAll initial [50, 10]) (addAll initial [50, 10]).m_min = true) :=
  ⟨⟨[50, 10], by decide, rfl⟩, by decide, by decide,
   claim_bit_zero _ ⟨[50, 10], by decide, rfl⟩ (by decide) (by decide)⟩

end LikelyDense

namespace LikelyDense

/-- C4: the representation flips exactly under the source's hysteresis tests,
computed in 32-bit unsigned arithmetic as the code does.  In hash-set mode, a
newly inserted value (after the min/max update) flips to bitmap mode iff
`2 * ((max - min) / 8) < capacity * sizeof(IndexType)`; in bitmap mode, an
out-of-range insertion flips to hash-set mode iff
`2 * (max(8, size) * 3 * sizeof(IndexType)) < (newMax - newMin) / 8`, where
`size` already counts the new value; every other `add` leaves the mode
unchanged. -/
theorem claim_transition_condition (s : LDSet) (v : ℕ) (hs : Reachable s)
    (hv : isValidValue v) :
    (s.m_size = 0 → isBitVector (add s v).1 = isBitVector s) ∧
    (s.m_size ≠ 0 → isBitVector s = false → v ∈ members s →
      isBitVector (add s v).1 = false) ∧
    (s.m_size ≠ 0 → isBitVector s = false → v ∉ members s →
      (isBitVector (add s v).1 = true ↔
        (max s.m_max v - min s.m_min v) / 8 * 2
          < ((s.m_inline.hashSet.add v).1.capacity * 4) % W)) ∧
    (s.m_size ≠ 0 → isBitVector s = true → s.m_min ≤ v → v ≤ s.m_max →
      isBitVector (add s v).1 = true) ∧
    (s.m_size ≠ 0 → isBitVector s = true → ¬ (s.m_min ≤ v ∧ v ≤ s.m_max) →
      (isBitVector (add s v).1 = false ↔
        (max 8 (s.m_size + 1) * 3) % W * 4 % W * 2 % W
          < (max s.m_max v - min s.m_min v) / 8)) := by
  have hI := reachable_inv hs
  have hstep := add_step s v hI hv
  obtain ⟨u, sz, mn, mx⟩ := s
  cases u with
  | bv b =>
      simp only [Inv] at hI
      obtain ⟨hsz, hcard, hdisj⟩ := hI
      refine ⟨?_, ?_, ?_, ?_, ?_⟩
      · intro h0
        have h0' : sz = 0 := h0
        subst h0'
        rw [add_empty (U.bv b) mn mx v]
        simp only [isBitVector]
        rw [W_eq]
        decide
      · intro _ hbvF _
        exact absurd hbvF (by simp [isBitVector, hsz])
      · intro _ hbvF _
        exact absurd hbvF (by simp [isBitVector, hsz])
      · intro h0 _ h1 h2
        have h0' : sz ≠ 0 := h0
        have h1' : mn ≤ v := h1
        have h2' : v ≤ mx := h2
        by_cases hmem : v - mn ∈ b
        · rw [add_bv_in_mem b sz mn mx v h0' hsz h1' h2' hmem]
          simp [isBitVector, hsz]
        · rw [add_bv_in_new b sz mn mx v h0' hsz h1' h2' hmem] at hstep ⊢
          exact isBitVector_true_of_inv_bv _ _ _ _ hstep.1
      · intro h0 _ hout
        have h0' : sz ≠ 0 := h0
        have hout' : ¬ (mn ≤ v ∧ v ≤ mx) := hout
        by_cases hD : (max 8 (sz + 1) * 3) % W * 4 % W * 2 % W < (max mx v - min mn v) / 8
        · rw [add_bv_out_trans b sz mn mx v h0' hsz hout' hD]
          exact iff_of_true (by simp [isBitVector]) hD
        · rcases Nat.lt_or_ge v mn with hlt | hge2
          · rw [add_bv_out_down b sz mn mx v h0' hsz hout' hD (by omega)] at hstep ⊢
            have ht := isBitVector_true_of_inv_bv _ _ _ _ hstep.1
            exact iff_of_false (by simp [ht]) hD
          · rw [add_bv_out_up b sz mn mx v h0' hsz hout' hD hge2] at hstep ⊢
            have ht := isBitVector_true_of_inv_bv _ _ _ _ hstep.1
            exact iff_of_false (by simp [ht]) hD
  | hs h =>
      have hsz : sz = W - 1 := by
        simp only [Inv] at hI
        exact hI.1
      subst hsz
      refine ⟨?_, ?_, ?_, ?_, ?_⟩
      · intro h0
        exact absurd h0 (show ¬ ((W : ℕ) - 1 = 0) by rw [W_eq]; omega)
      · intro _ _ hmem
        rw [members_hs] at hmem
        rw [add_hs_dup h mn mx v hmem]
        simp [isBitVector]
      · intro _ _ hnmem
        rw [members_hs] at hnmem
        by_cases hC : (max mx v - min mn v) / 8 * 2 < ((h.add v).1.capacity * 4) % W
        · rw [add_hs_new_trans h mn mx v hnmem hC] at hstep ⊢
          rw [transitionToBitVector_eq] at hstep ⊢
          have ht := isBitVector_true_of_inv_bv _ _ _ _ hstep.1
          exact iff_of_true ht hC
        · rw [add_hs_new_stay h mn mx v hnmem hC]
          exact iff_of_false (by simp [isBitVector]) hC
      · intro _ hbvT _ _
        exact absurd hbvT (by simp [isBitVector])
      · intro _ hbvT _
        exact absurd hbvT (by simp [isBitVector])

/-- Witness for C4: an in-range bitmap-mode insertion leaves the
representation in bitmap mode. -/
theorem claim_transition_condition_witness :
    Reachable (addAll initial [50, 10]) ∧ isValidValue 30 ∧
      (addAll initial [50, 10]).m_size ≠ 0 ∧
      isBitVector (addAll initial [50, 10]) = true ∧
      (addAll initial [50, 10]).m_min ≤ 30 ∧ 30 ≤ (addAll initial [50, 10]).m_max ∧
      isBitVector (add (addAll initial [50, 10]) 30).1 = true :=
  ⟨⟨[50, 10], by decide, rfl⟩, by decide, by decide, by decide, by decide, by decide,
   (claim_transition_condition _ 30 ⟨[50, 10], by decide, rfl⟩ (by decide)).2.2.2.1
     (by decide) (by decide) (by decide) (by decide)⟩

end LikelyDense

namespace LikelyDense

/-- C5: in bitmap mode, inserting a valid value below the tracked minimum when
the cost estimate decides against the hash-set rebuilds the bitmap re-based to
the new minimum: the new bit set is the old one shifted up by `m_min - value`
plus bit 0, `m_min` becomes the value, `m_max` is unchanged, the mode stays
bitmap, every old member plus the new value is a member, and the size grows by
one. -/
theorem claim_downward_extension (s : LDSet) (v : ℕ) (hs : Reachable s)
    (hv : isValidValue v) (hbv : isBitVector s = true) (hne : s.m_size ≠ 0)
    (hlt : v < s.m_min)
    (hcond : ¬ ((max 8 (s.m_size + 1) * 3) % W * 4 % W * 2 % W
        < (max s.m_max v - min s.m_min v) / 8)) :
    (add s v).1.m_inline.bitVector
        = insert 0 ((s.m_inline.bitVector).image (· + (s.m_min - v))) ∧
      (add s v).1.m_min = v ∧ (add s v).1.m_max = s.m_max ∧
      isBitVector (add s v).1 = true ∧
      members (add s v).1 = insert v (members s) ∧
      contains (add s v).1 v = true ∧
      size (add s v).1 = size s + 1 := by
  have hI := reachable_inv hs
  have hstep := add_step s v hI hv
  obtain ⟨u, sz, mn, mx⟩ := s
  cases u with
  | hs h =>
      simp only [Inv] at hI
      exact absurd hbv (by simp [isBitVector, hI.1])
  | bv b =>
      have hIorig := hI
      simp only [Inv] at hI
      obtain ⟨hsz, hcard, hdisj⟩ := hI
      have hne' : sz ≠ 0 := hne
      have hlt' : v < mn := hlt
      have hcond' : ¬ ((max 8 (sz + 1) * 3) % W * 4 % W * 2 % W
          < (max mx v - min mn v) / 8) := hcond
      have hout : ¬ (mn ≤ v ∧ v ≤ mx) := by omega
      have hvnot : v ∉ members ⟨.bv b, sz, mn, mx⟩ := by
        rw [members_bv _ _ _ _ hsz]
        intro hm
        obtain ⟨i, hi, rfl⟩ := Finset.mem_image.1 hm
        omega
      rw [add_bv_out_down b sz mn mx v hne' hsz hout hcond' (by omega)] at hstep ⊢
      refine ⟨rfl, rfl, rfl, isBitVector_true_of_inv_bv _ _ _ _ hstep.1, hstep.2.1, ?_, ?_⟩
      · exact (contains_iff _ hstep.1 v).2
          (by rw [hstep.2.1]; exact Finset.mem_insert_self _ _)
      · rw [size_eq_card _ hstep.1, size_eq_card _ hIorig, hstep.2.1,
          Finset.card_insert_of_not_mem hvnot]

/-- Witness for C5 at the spec scenario: insert 50 from empty, then insert 10,
a downward out-of-range extension; afterwards both are present, the size is 2
and the minimum is 10. -/
theorem claim_downward_extension_witness :
    Reachable (addAll initial [50]) ∧ isValidValue 10 ∧
      isBitVector (addAll initial [50]) = true ∧
      (addAll initial [50]).m_size ≠ 0 ∧ 10 < (addAll initial [50]).m_min ∧
      ¬ ((max 8 ((addAll initial [50]).m_size + 1) * 3) % W * 4 % W * 2 % W
          < (max (addAll initial [50]).m_max 10 - min (addAll initial [50]).m_min 10) / 8) ∧
      (add (addAll initial [50]) 10).1.m_min = 10 ∧
      contains (add (addAll initial [50]) 10).1 10 = true ∧
      contains (add (addAll initial [50]) 10).1 50 = true ∧
      size (add (addAll initial [50]) 10).1 = 2 :=
  ⟨⟨[50], by decide, rfl⟩, by decide, by decide, by decide, by decide, by decide,
   (claim_downward_extension _ 10 ⟨[50], by decide, rfl⟩ (by decide) (by decide)
      (by decide) (by decide) (by decide)).2.1,
   (claim_downward_extension _ 10 ⟨[50], by decide, rfl⟩ (by decide) (by decide)
      (by decide) (by decide) (by decide)).2.2.2.2.2.1,
   by decide, by decide⟩

/-- C6: on every reachable state the diagnostic `validate` succeeds (in bitmap
mode the tracked size equals the number of set bits, and for nonempty states
the tracked bounds match the recomputed minimum and maximum), and the tracked
`m_min`, `m_max` bound the members and are themselves members when the state
is nonempty. -/
theorem claim_validate_bounds (s : LDSet) (hs : Reachable s) :
    validate s = true ∧
      (∀ x ∈ members s, s.m_min ≤ x ∧ x ≤ s.m_max) ∧
      ((members s).Nonempty → s.m_min ∈ members s ∧ s.m_max ∈ members s) := by
  have hI := reachable_inv hs
  obtain ⟨u, sz, mn, mx⟩ := s
  have hb : (∀ x ∈ members ⟨u, sz, mn, mx⟩, mn ≤ x ∧ x ≤ mx) ∧
      ((members ⟨u, sz, mn, mx⟩).Nonempty →
        mn ∈ members ⟨u, sz, mn, mx⟩ ∧ mx ∈ members ⟨u, sz, mn, mx⟩) := by
    cases u with
    | bv b =>
        simp only [Inv] at hI
        obtain ⟨hsz, hcard, hdisj⟩ := hI
        rw [members_bv _ _ _ _ hsz]
        rcases hdisj with rfl | ⟨h0b, hmxb, hmnmx, hball⟩
        · constructor
          · intro x hx
            simp at hx
          · intro hne
            simp at hne
        · constructor
          · intro x hx
            obtain ⟨i, hi, rfl⟩ := Finset.mem_image.1 hx
            have := (hball i hi).1
            exact ⟨by omega, by omega⟩
          · intro hne
            exact ⟨Finset.mem_image.2 ⟨0, h0b, by omega⟩,
              Finset.mem_image.2 ⟨mx - mn, hmxb, by omega⟩⟩
    | hs h =>
        simp only [Inv] at hI
        obtain ⟨hsz, hmin, hmax, hall⟩ := hI
        subst hsz
        rw [members_hs]
        exact ⟨fun x hx => ⟨(hall x hx).1, (hall x hx).2.1⟩, fun hne => ⟨hmin, hmax⟩⟩
  exact ⟨validate_of_inv _ hI, hb.1, hb.2⟩

/-- Witness for C6 at the bitmap state from the spec scenario 4000, 4002, 4003. -/
theorem claim_validate_bounds_witness :
    Reachable (addAll initial [4000, 4002, 4003]) ∧
      validate (addAll initial [4000, 4002, 4003]) = true :=
  ⟨⟨[4000, 4002, 4003], by decide, rfl⟩,
   (claim_validate_bounds _ ⟨[4000, 4002, 4003], by decide, rfl⟩).1⟩

/-- C9 counterexample: moving out of the bitmap-mode container reached by
inserting 5 leaves the source with `size() = 1`, not 0, because the move
constructor never resets the scalar fields of the source; this refutes the
claim that the moved-from source always reports size 0. -/
theorem claim_move_counterexample :
    ¬ (size (moveConstruct (addAll initial [5])).2 = 0) := by decide

/-- C9 (amended): move construction gives the destination exactly the source's
representation, size and bounds, and the moved-from source contains no members;
its `size()` is 0 in hash-set mode, but in bitmap mode it still reports the old
element count because the scalar fields are not reset.  (The class has no move
assignment operator: the user-declared destructor and move constructor keep it
from being generated.) -/
theorem claim_move_construct (s : LDSet) (hs : Reachable s) :
    (moveConstruct s).1 = s ∧
      members (moveConstruct s).2 = ∅ ∧
      (∀ v, contains (moveConstruct s).2 v = false) ∧
      (isBitVector s = false → size (moveConstruct s).2 = 0) ∧
      (isBitVector s = true → size (moveConstruct s).2 = size s) := by
  have hI := reachable_inv hs
  obtain ⟨u, sz, mn, mx⟩ := s
  cases u with
  | bv b =>
      have hsz : sz ≠ W - 1 := by
        simp only [Inv] at hI
        exact hI.1
      have hmv : moveConstruct ⟨.bv b, sz, mn, mx⟩
          = (⟨.bv b, sz, mn, mx⟩, ⟨.bv ∅, sz, mn, mx⟩) := by
        unfold moveConstruct
        rw [if_pos (by simp [hsz])]
        rfl
      rw [hmv]
      refine ⟨rfl, ?_, ?_, ?_, ?_⟩
      · rw [members_bv _ _ _ _ hsz]
        simp
      · intro v
        simp [contains, isBitVector, hsz, U.bitVector]
      · intro hF
        exact absurd hF (by simp [isBitVector, hsz])
      · intro _
        simp [size, isBitVector, hsz]
  | hs h =>
      have hsz : sz = W - 1 := by
        simp only [Inv] at hI
        exact hI.1
      subst hsz
      have hmv : moveConstruct ⟨.hs h, W - 1, mn, mx⟩
          = (⟨.hs h, W - 1, mn, mx⟩, ⟨.hs ⟨∅, 0⟩, W - 1, mn, mx⟩) := by
        unfold moveConstruct
        rw [if_neg (by simp)]
        rfl
      rw [hmv]
      refine ⟨rfl, ?_, ?_, ?_, ?_⟩
      · rw [members_hs]
      · intro v
        simp [contains, isBitVector, U.hashSet]
      · intro _
        simp [size, isBitVector, U.hashSet]
      · intro hT
        exact absurd hT (by simp [isBitVector])

/-- Witness for C9 (amended) at a bitmap-mode state. -/
theorem claim_move_construct_witness :
    Reachable (addAll initial [5]) ∧
      (moveConstruct (addAll initial [5])).1 = addAll initial [5] ∧
      members (moveConstruct (addAll initial [5])).2 = ∅ :=
  ⟨⟨[5], by decide, rfl⟩,
   (claim_move_construct _ ⟨[5], by decide, rfl⟩).1,
   (claim_move_construct _ ⟨[5], by decide, rfl⟩).2.1⟩

end LikelyDense
